import Mathlib

/-!
Verification development for the Canteiro Seguro APR generator
(`src/pipeline.py`, `src/app.py`).

The repository's algorithmic core is the RAG retrieval step
(`executar_rag`): cosine similarities against a matrix of chunk
embeddings, `argsort()[-TOP_K_RAG:][::-1]` top-k selection, chunk
lookup, summarisation, and context truncation.  Around it sit the
chunking step (`processar_pdfs`), the batched embedding step
(`gerar_embeddings`) and the JSON post-processing of the generated
APR (`gerar_apr_ia`).

Modelling conventions:
* Python strings are Lean `String`s; Python slicing `s[:n]` is
  `pyTake` (both operate on code points).
* Embedding vectors are `List ℚ`.  Float arithmetic is idealised as
  exact arithmetic.  Cosine similarity involves a square root, so to
  keep scores exactly representable we work with the *signed square*
  of the cosine similarity, `x * |x|` of it, which is the rational
  `d*|d| / (‖a‖²·‖b‖²)`.  Since `x ↦ x * |x|` is strictly monotone
  (proved below as `signedSq_strictMono`), the induced ranking and
  tie structure are identical to those of the true cosine scores.
* `numpy.argsort` (ascending) is modelled as an ascending insertion
  sort of the indices.  numpy's default `kind='quicksort'` is
  documented *not* stable, so for arrays above its insertion-sort
  cutoff the order among equal scores is implementation-defined; the
  model is therefore only used in two ways: every ranking theorem
  below except the tie-break theorem is invariant under the order of
  equal scores (it relies only on comparisons between distinct score
  values, membership and counting), and the tie-break theorem carries
  an explicit `sims.length ≤ 16` hypothesis confining it to the regime
  where numpy's quicksort runs its insertion-sort base case, which is
  exactly this stable ascending sort.
* External services (the Vertex AI embedding and generation models)
  are abstracted as function parameters, preserving exactly how the
  code applies them (batch-wise, order-preserving).
-/

/-! ## Python string primitives -/

/-- Python slicing `s[:n]` on code points. -/
def pyTake (s : String) (n : ℕ) : String := ⟨s.data.take n⟩

theorem pyTake_length (s : String) (n : ℕ) : (pyTake s n).length = min n s.length :=
  List.length_take n s.data

/-- Python `.strip()` (whitespace from both ends, on code points). -/
def pyStrip (s : String) : String :=
  ⟨((s.data.dropWhile Char.isWhitespace).reverse.dropWhile Char.isWhitespace).reverse⟩

/-- Python `.lower()` (per-character lowering, on code points). -/
def pyLower (s : String) : String := ⟨s.data.map Char.toLower⟩

/-- Auxiliary character-list test used to model Python `in` on strings. -/
def isPrefixL : List Char → List Char → Bool
  | [], _ => true
  | _ :: _, [] => false
  | a :: as, b :: bs => a == b && isPrefixL as bs

/-- Python substring containment `needle in hay` on code points. -/
def containsSub (hay needle : String) : Bool :=
  (List.range (hay.data.length + 1)).any fun i => isPrefixL needle.data (hay.data.drop i)

/-! ## Vector arithmetic (`sklearn.metrics.pairwise.cosine_similarity`) -/

/-- Dot product of two equal-length embedding vectors; trailing entries of
the longer one are ignored (the pipeline only applies it to equal lengths). -/
def dotL (a b : List ℚ) : ℚ := (List.zipWith (fun x y => x * y) a b).sum

/-- Squared Euclidean norm. -/
def normSq (a : List ℚ) : ℚ := dotL a a

/-- Signed square of sklearn's cosine similarity:
`cosine_similarity` computes `dot(a,b)/(‖a‖·‖b‖)`, with rows of zero norm
left unnormalised (so a zero-norm row yields similarity `0`).  We represent
each similarity score by its image under the strictly monotone map
`x ↦ x * |x|`, which turns `d/(‖a‖·‖b‖)` into the rational
`d*|d|/(normSq a * normSq b)` and so keeps the exact ranking and tie
structure while staying inside `ℚ` (see `cosineSimSq_eq_signedSq`). -/
def cosineSimSq (q f : List ℚ) : ℚ :=
  if normSq q * normSq f = 0 then 0 else dotL q f * |dotL q f| / (normSq q * normSq f)

theorem normSq_nonneg (a : List ℚ) : 0 ≤ normSq a := by
  have h : List.zipWith (fun x y => x * y) a a = a.map (fun x => x * x) := by
    induction a with
    | nil => rfl
    | cons x xs ih => simp [List.zipWith, ih]
  unfold normSq dotL
  rw [h]
  apply List.sum_nonneg
  intro x hx
  rcases List.mem_map.mp hx with ⟨y, _, rfl⟩
  exact mul_self_nonneg y

/-- The reparameterisation `x ↦ x * |x|` used for scores is strictly
monotone, hence ranking by `cosineSimSq` is ranking by cosine similarity. -/
theorem signedSq_strictMono : StrictMono (fun x : ℝ => x * |x|) := by
  intro a b hab
  show a * |a| < b * |b|
  rcases le_or_lt 0 a with ha | ha
  · have hb : 0 < b := lt_of_le_of_lt ha hab
    rw [abs_of_nonneg ha, abs_of_pos hb]
    nlinarith
  · rcases le_or_lt 0 b with hb | hb
    · have h1 : a * |a| < 0 := by
        rw [abs_of_neg ha]
        nlinarith
      have h2 : 0 ≤ b * |b| := by
        rw [abs_of_nonneg hb]
        exact mul_self_nonneg b
      linarith
    · rw [abs_of_neg ha, abs_of_neg hb]
      nlinarith

/-- On nondegenerate inputs `cosineSimSq` is exactly the signed square of
the true cosine similarity, justifying the rational score model. -/
theorem cosineSimSq_eq_signedSq (q f : List ℚ) (hq : normSq q ≠ 0) (hf : normSq f ≠ 0) :
    ((cosineSimSq q f : ℚ) : ℝ) =
      (fun x => x * |x|)
        (((dotL q f : ℚ) : ℝ) /
          (Real.sqrt ((normSq q : ℚ) : ℝ) * Real.sqrt ((normSq f : ℚ) : ℝ))) := by
  have hq0 : (0 : ℝ) < ((normSq q : ℚ) : ℝ) := by
    have := normSq_nonneg q
    have hne : ((normSq q : ℚ) : ℝ) ≠ 0 := by exact_mod_cast hq
    have hge : (0 : ℝ) ≤ ((normSq q : ℚ) : ℝ) := by exact_mod_cast this
    exact lt_of_le_of_ne hge (Ne.symm hne)
  have hf0 : (0 : ℝ) < ((normSq f : ℚ) : ℝ) := by
    have := normSq_nonneg f
    have hne : ((normSq f : ℚ) : ℝ) ≠ 0 := by exact_mod_cast hf
    have hge : (0 : ℝ) ≤ ((normSq f : ℚ) : ℝ) := by exact_mod_cast this
    exact lt_of_le_of_ne hge (Ne.symm hne)
  have hsq : (0 : ℝ) < Real.sqrt ((normSq q : ℚ) : ℝ) := Real.sqrt_pos.mpr hq0
  have hsf : (0 : ℝ) < Real.sqrt ((normSq f : ℚ) : ℝ) := Real.sqrt_pos.mpr hf0
  have hprod : (0 : ℝ) < Real.sqrt ((normSq q : ℚ) : ℝ) * Real.sqrt ((normSq f : ℚ) : ℝ) :=
    mul_pos hsq hsf
  have hmulne : normSq q * normSq f ≠ 0 := mul_ne_zero hq hf
  have hSS : Real.sqrt ((normSq q : ℚ) : ℝ) * Real.sqrt ((normSq f : ℚ) : ℝ) *
      (Real.sqrt ((normSq q : ℚ) : ℝ) * Real.sqrt ((normSq f : ℚ) : ℝ))
      = ((normSq q : ℚ) : ℝ) * ((normSq f : ℚ) : ℝ) := by
    rw [mul_mul_mul_comm, Real.mul_self_sqrt hq0.le, Real.mul_self_sqrt hf0.le]
  show ((cosineSimSq q f : ℚ) : ℝ) =
      ((dotL q f : ℚ) : ℝ) /
          (Real.sqrt ((normSq q : ℚ) : ℝ) * Real.sqrt ((normSq f : ℚ) : ℝ)) *
        |((dotL q f : ℚ) : ℝ) /
          (Real.sqrt ((normSq q : ℚ) : ℝ) * Real.sqrt ((normSq f : ℚ) : ℝ))|
  rw [abs_div, abs_of_pos hprod, div_mul_div_comm, hSS]
  simp only [cosineSimSq, if_neg hmulne]
  push_cast
  ring

/-! ## The ranking step (`similarities.argsort()[-TOP_K_RAG:][::-1]`) -/

def TOP_K_RAG : ℕ := 3

/-- Score of index `i` in the similarity vector (out-of-range reads 0;
never exercised because `argsort` only produces in-range indices). -/
def scoreAt (sims : List ℚ) (i : ℕ) : ℚ := sims.getD i 0

/-- Strict sort key used to model the stable ascending `argsort`:
index `i` precedes `j` iff its score is smaller, with equal scores ordered
by index (that is exactly stability of the ascending sort). -/
def ltKey (sims : List ℚ) (i j : ℕ) : Prop :=
  scoreAt sims i < scoreAt sims j ∨ (scoreAt sims i = scoreAt sims j ∧ i < j)

instance (sims : List ℚ) (i j : ℕ) : Decidable (ltKey sims i j) := by
  unfold ltKey
  infer_instance

/-- Insert an index into an already key-sorted list of indices. -/
def insIdx (sims : List ℚ) (i : ℕ) : List ℕ → List ℕ
  | [] => [i]
  | j :: l => if ltKey sims i j then i :: j :: l else j :: insIdx sims i l

/-- Ascending `numpy.argsort` of the similarity vector, modelled as an
insertion sort.  For arrays of at most 16 elements numpy's default sort
is exactly an insertion sort (stable); above that cutoff its tie order is
implementation-defined, and correspondingly only conclusions that are
invariant under the order of equal scores are drawn from this model,
except under an explicit `≤ 16` length hypothesis. -/
def argsortAsc (sims : List ℚ) : List ℕ :=
  (List.range sims.length).foldr (insIdx sims) []

/-- Python slice `xs[-k:]` (with the `[-0:] = xs` quirk). -/
def lastSlice {α : Type} (xs : List α) (k : ℕ) : List α :=
  if k = 0 then xs else xs.drop (xs.length - k)

/-- `similarities.argsort()[-k:][::-1]` — the top-k indices, best first. -/
def topIndices (sims : List ℚ) (k : ℕ) : List ℕ :=
  (lastSlice (argsortAsc sims) k).reverse

/-- The retrieval result of `executar_rag` lines 222–224, seen as the
spec's `retrieve`: selected fragment indices paired with their scores,
highest similarity first. -/
def retrieve (sims : List ℚ) (k : ℕ) : List (ℕ × ℚ) :=
  (topIndices sims k).map (fun i => (i, scoreAt sims i))

/-! ## Order facts about the sort key -/

theorem ltKey_trans {sims : List ℚ} {i j k : ℕ} :
    ltKey sims i j → ltKey sims j k → ltKey sims i k := by
  intro h1 h2
  rcases h1 with h1 | ⟨e1, l1⟩
  · rcases h2 with h2 | ⟨e2, _⟩
    · exact Or.inl (h1.trans h2)
    · exact Or.inl (e2 ▸ h1)
  · rcases h2 with h2 | ⟨e2, l2⟩
    · exact Or.inl (e1 ▸ h2)
    · exact Or.inr ⟨e1.trans e2, l1.trans l2⟩

theorem ltKey_irrefl {sims : List ℚ} (i : ℕ) : ¬ ltKey sims i i := by
  rintro (h | ⟨_, h⟩)
  · exact lt_irrefl _ h
  · exact lt_irrefl _ h

theorem ltKey_asymm {sims : List ℚ} {i j : ℕ} : ltKey sims i j → ¬ ltKey sims j i := by
  intro h1 h2
  exact ltKey_irrefl i (ltKey_trans h1 h2)

theorem ltKey_total {sims : List ℚ} {i j : ℕ} (h : i ≠ j) :
    ltKey sims i j ∨ ltKey sims j i := by
  rcases lt_trichotomy (scoreAt sims i) (scoreAt sims j) with hlt | heq | hgt
  · exact Or.inl (Or.inl hlt)
  · rcases Nat.lt_or_ge i j with hij | hij
    · exact Or.inl (Or.inr ⟨heq, hij⟩)
    · exact Or.inr (Or.inr ⟨heq.symm, lt_of_le_of_ne hij (Ne.symm h)⟩)
  · exact Or.inr (Or.inl hgt)

/-! ## Correctness of the argsort model -/

theorem insIdx_perm (sims : List ℚ) (i : ℕ) :
    ∀ l : List ℕ, (insIdx sims i l).Perm (i :: l) := by
  intro l
  induction l with
  | nil => exact List.Perm.refl _
  | cons j l ih =>
    by_cases h : ltKey sims i j
    · simp only [insIdx, if_pos h]
      exact List.Perm.refl _
    · simp only [insIdx, if_neg h]
      exact (ih.cons j).trans (List.Perm.swap i j l)

theorem mem_insIdx {sims : List ℚ} {i x : ℕ} {l : List ℕ} :
    x ∈ insIdx sims i l ↔ x = i ∨ x ∈ l := by
  rw [(insIdx_perm sims i l).mem_iff, List.mem_cons]

theorem insIdx_pairwise {sims : List ℚ} {i : ℕ} :
    ∀ l : List ℕ, l.Pairwise (ltKey sims) → (∀ j ∈ l, i ≠ j) →
      (insIdx sims i l).Pairwise (ltKey sims) := by
  intro l
  induction l with
  | nil =>
    intro _ _
    simp [insIdx]
  | cons j l ih =>
    intro hp hne
    rcases List.pairwise_cons.mp hp with ⟨hj, hl⟩
    by_cases h : ltKey sims i j
    · simp only [insIdx, if_pos h]
      refine List.pairwise_cons.mpr ⟨?_, hp⟩
      intro x hx
      rcases List.mem_cons.mp hx with rfl | hx
      · exact h
      · exact ltKey_trans h (hj x hx)
    · simp only [insIdx, if_neg h]
      refine List.pairwise_cons.mpr ⟨?_, ?_⟩
      · intro x hx
        rcases mem_insIdx.mp hx with hxi | hx
        · subst hxi
          rcases ltKey_total (hne j (List.mem_cons_self j l)) with hc | hc
          · exact absurd hc h
          · exact hc
        · exact hj x hx
      · exact ih hl fun x hx => hne x (List.mem_cons_of_mem j hx)

theorem foldr_insIdx_perm (sims : List ℚ) :
    ∀ L : List ℕ, (L.foldr (insIdx sims) []).Perm L := by
  intro L
  induction L with
  | nil => exact List.Perm.refl _
  | cons a L ih =>
    exact (insIdx_perm sims a (L.foldr (insIdx sims) [])).trans (ih.cons a)

theorem foldr_insIdx_pairwise (sims : List ℚ) :
    ∀ L : List ℕ, L.Nodup → (L.foldr (insIdx sims) []).Pairwise (ltKey sims) := by
  intro L
  induction L with
  | nil =>
    intro _
    exact List.Pairwise.nil
  | cons a L ih =>
    intro hnd
    rcases List.nodup_cons.mp hnd with ⟨ha, hL⟩
    refine insIdx_pairwise _ (ih hL) ?_
    intro j hj
    intro hEq
    exact ha (hEq ▸ (foldr_insIdx_perm sims L).mem_iff.mp hj)

theorem argsortAsc_perm (sims : List ℚ) :
    (argsortAsc sims).Perm (List.range sims.length) :=
  foldr_insIdx_perm sims (List.range sims.length)

theorem argsortAsc_pairwise (sims : List ℚ) :
    (argsortAsc sims).Pairwise (ltKey sims) :=
  foldr_insIdx_pairwise sims _ (List.nodup_range _)

theorem argsortAsc_length (sims : List ℚ) :
    (argsortAsc sims).length = sims.length := by
  rw [(argsortAsc_perm sims).length_eq, List.length_range]

theorem mem_argsortAsc {sims : List ℚ} {i : ℕ} :
    i ∈ argsortAsc sims ↔ i < sims.length := by
  rw [(argsortAsc_perm sims).mem_iff, List.mem_range]

theorem argsortAsc_nodup (sims : List ℚ) : (argsortAsc sims).Nodup :=
  ((argsortAsc_perm sims).nodup_iff).mpr (List.nodup_range _)

/-! ## Facts about the top-k slice -/

theorem topIndices_eq {sims : List ℚ} {k : ℕ} (hk : k ≠ 0) :
    topIndices sims k = ((argsortAsc sims).drop (sims.length - k)).reverse := by
  simp [topIndices, lastSlice, hk, argsortAsc_length]

theorem topIndices_length {sims : List ℚ} {k : ℕ} (hk : k ≠ 0) :
    (topIndices sims k).length = min k sims.length := by
  rw [topIndices_eq hk, List.length_reverse, List.length_drop, argsortAsc_length]
  omega

theorem mem_topIndices_sub {sims : List ℚ} {k i : ℕ} (h : i ∈ topIndices sims k) :
    i < sims.length := by
  have : i ∈ argsortAsc sims := by
    unfold topIndices lastSlice at h
    rw [List.mem_reverse] at h
    by_cases hk : k = 0
    · rw [if_pos hk] at h
      exact h
    · rw [if_neg hk] at h
      exact List.mem_of_mem_drop h
  exact mem_argsortAsc.mp this

theorem topIndices_nodup (sims : List ℚ) (k : ℕ) : (topIndices sims k).Nodup := by
  unfold topIndices lastSlice
  by_cases hk : k = 0
  · rw [if_pos hk]
    exact (List.nodup_reverse).mpr (argsortAsc_nodup sims)
  · rw [if_neg hk]
    exact (List.nodup_reverse).mpr
      ((argsortAsc_nodup sims).sublist (List.drop_sublist _ _))

theorem topIndices_pairwise (sims : List ℚ) (k : ℕ) :
    (topIndices sims k).Pairwise (fun i j => ltKey sims j i) := by
  unfold topIndices lastSlice
  by_cases hk : k = 0
  · rw [if_pos hk]
    exact (List.pairwise_reverse).mpr (argsortAsc_pairwise sims)
  · rw [if_neg hk]
    exact (List.pairwise_reverse).mpr
      ((argsortAsc_pairwise sims).sublist (List.drop_sublist _ _))

/-- Every index of the similarity vector that is *not* selected has a score
at most that of every selected index: the top-k slice of the ascending sort
is an upper set of the ranking. -/
theorem excluded_le_included {sims : List ℚ} {k i j : ℕ} (hk : k ≠ 0)
    (hi : i < sims.length) (hni : i ∉ topIndices sims k) (hj : j ∈ topIndices sims k) :
    scoreAt sims i ≤ scoreAt sims j := by
  set A := argsortAsc sims with hA
  set m := sims.length - k with hm
  have hsplit : A.take m ++ A.drop m = A := List.take_append_drop m A
  have hPW : (A.take m ++ A.drop m).Pairwise (ltKey sims) := by
    rw [hsplit]
    exact argsortAsc_pairwise sims
  have hiA : i ∈ A := mem_argsortAsc.mpr hi
  have hidrop : i ∉ A.drop m := by
    intro hcon
    apply hni
    rw [topIndices_eq hk, List.mem_reverse]
    exact hcon
  have hitake : i ∈ A.take m := by
    rcases List.mem_append.mp (by rw [hsplit]; exact hiA) with h | h
    · exact h
    · exact absurd h hidrop
  have hjdrop : j ∈ A.drop m := by
    rw [topIndices_eq hk, List.mem_reverse] at hj
    exact hj
  have hkey : ltKey sims i j :=
    (List.pairwise_append.mp hPW).2.2 i hitake j hjdrop
  rcases hkey with h | ⟨h, _⟩
  · exact le_of_lt h
  · exact le_of_eq h

/-! ## `executar_rag` (`src/pipeline.py` lines 213–244) -/

/-- A chunk record `{"source": ..., "content": ...}`. -/
structure ChunkRec where
  source : String
  content : String
deriving DecidableEq

/-- `cosine_similarity([query_embedding], embeddings_array)[0]` — sklearn
raises a `ValueError` when the embedding array is empty (1-D array of
shape (0,)) or when a row's dimensionality disagrees with the query's;
otherwise it yields one score per row (signed-square representation). -/
def cosineSimilarityRow (q : List ℚ) (embs : List (List ℚ)) : Except String (List ℚ) :=
  if embs = [] then Except.error "ValueError: Expected 2D array"
  else if embs.any (fun e => e.length != q.length) then
    Except.error "ValueError: Incompatible dimension"
  else Except.ok (embs.map (cosineSimSq q))

/-- `[all_chunks[i]['content'] for i in top_indices]` — Python indexing,
raising `IndexError` on an out-of-range index. -/
def selContents (chunks : List String) : List ℕ → Except String (List String)
  | [] => Except.ok []
  | i :: rest =>
    match chunks[i]? with
    | some c =>
      match selContents chunks rest with
      | Except.ok l => Except.ok (c :: l)
      | Except.error e => Except.error e
    | none => Except.error "IndexError"

/-- Context truncation (lines 236–238). -/
def truncateCtx (ctx : String) : String :=
  if ctx.length > 3000 then pyTake ctx 3000 ++ "... [texto truncado]" else ctx

/-- One summarisation step (lines 230–234): the generation model `resumir`
sees the first 2000 characters of the chunk; its reply is stripped and
truncated to 500 characters. -/
def resumoOf (resumir : String → String) (c : String) : String :=
  pyTake (pyStrip (resumir (pyTake c 2000))) 500

/-- The body of the `try:` block of `executar_rag`.  `q` is the query
embedding (output of the external embedding model on `tarefa_usuario`),
`resumir` the external generation model. -/
def executarRagBody (q : List ℚ) (chunks : List String) (embs : List (List ℚ))
    (resumir : String → String) : Except String String :=
  match cosineSimilarityRow q embs with
  | Except.error e => Except.error e
  | Except.ok sims =>
    match selContents chunks (topIndices sims TOP_K_RAG) with
    | Except.error e => Except.error e
    | Except.ok sel =>
      Except.ok (truncateCtx (String.intercalate "\n---\n" (sel.map (resumoOf resumir))))

/-- `executar_rag`: the `except` clause catches any exception from the
body, reports it to the UI and returns the empty string. -/
def executar_rag (q : List ℚ) (chunks : List String) (embs : List (List ℚ))
    (resumir : String → String) : String :=
  match executarRagBody q chunks embs resumir with
  | Except.ok s => s
  | Except.error _ => ""

/-! ## The selection step of `src/app.py` `executar_rag` (lines 250–252) -/

/-- `[i for i in top_indices if i < len(all_chunks)]` — the in-bounds
filter guarding the chunk lookup in app.py. -/
def appTopIndices (nChunks : ℕ) (sims : List ℚ) : List ℕ :=
  (topIndices sims TOP_K_RAG).filter (fun i => decide (i < nChunks))

/-- `[all_chunks[i] for i in top_indices if i < len(all_chunks)]`. -/
def selecionadosApp (chunks : List ChunkRec) (sims : List ℚ) : List ChunkRec :=
  (appTopIndices chunks.length sims).filterMap (fun i => chunks[i]?)

/-! ## `gerar_embeddings` (`src/pipeline.py` lines 177–207) -/

def MAX_BATCH_CHARS : ℕ := 15000

/-- Total character count of a batch. -/
def sumLen (b : List String) : ℕ := (b.map String.length).sum

/-- The batching loop of `gerar_embeddings`: `cur`/`size` are the running
`batch_texts`/`current_size`; a batch is flushed when adding the next text
would exceed `MAX_BATCH_CHARS` and the batch is non-empty, and the final
partial batch is flushed after the loop. -/
def batchLoop : List String → List String → ℕ → List (List String)
  | [], cur, _ => if cur = [] then [] else [cur]
  | t :: ts, cur, size =>
    if size + t.length > MAX_BATCH_CHARS ∧ cur ≠ [] then
      cur :: batchLoop ts [t] t.length
    else
      batchLoop ts (cur ++ [t]) (size + t.length)

/-- The batches actually sent to the embedding service. -/
def makeBatches (texts : List String) : List (List String) := batchLoop texts [] 0

/-- `gerar_embeddings`: each batch is sent to the embedding model (which
returns one vector per input text, in order — modelled by mapping the
abstract `embed`), and the per-batch results are concatenated into
`vectors` in batch order. -/
def gerar_embeddings (embed : String → List ℚ) (chunks : List ChunkRec) : List (List ℚ) :=
  ((makeBatches (chunks.map ChunkRec.content)).map (List.map embed)).flatten

/-! ## `processar_pdfs` (`src/pipeline.py` lines 122–175) -/

def MAX_CHARS : ℕ := 4000

/-- `blob.name.lower().endswith(".pdf")`. -/
def endsWithPdf (name : String) : Bool :=
  isPrefixL ".pdf".data.reverse (pyLower name).data.reverse

/-- `[c[:MAX_CHARS] if len(c) > MAX_CHARS else c for c in chunks]`. -/
def safeChunks (chunks : List String) : List String :=
  chunks.map (fun c => if c.length > MAX_CHARS then pyTake c MAX_CHARS else c)

/-- The chunk production of `processar_pdfs`: blobs are (name, extracted
text) pairs, the langchain `RecursiveCharacterTextSplitter` is abstracted
as `split`; non-PDF blobs and PDFs without extractable text are skipped,
and each produced chunk is hard-capped at `MAX_CHARS` characters. -/
def processar_pdfs (split : String → List String) (blobs : List (String × String)) :
    List ChunkRec :=
  blobs.flatMap (fun b =>
    if endsWithPdf b.1 then
      if pyStrip b.2 = "" then []
      else (safeChunks (split b.2)).map (fun c => ⟨b.1, c⟩)
    else [])

/-! ## `gerar_apr_ia` post-processing (`src/pipeline.py` lines 246–323) -/

/-- JSON values, as produced by `json.loads` (numbers idealised as
integers; the fields reasoned about below hold strings and lists). -/
inductive JVal where
  | jnull : JVal
  | jbool : Bool → JVal
  | jnum : Int → JVal
  | jstr : String → JVal
  | jarr : List JVal → JVal
  | jobj : List (String × JVal) → JVal

/-- Python truthiness of a JSON value. -/
def truthy : JVal → Bool
  | JVal.jnull => false
  | JVal.jbool b => b
  | JVal.jnum n => n != 0
  | JVal.jstr s => s != ""
  | JVal.jarr xs => !xs.isEmpty
  | JVal.jobj fs => !fs.isEmpty

/-- A JSON object (Python dict: unique keys, insertion-ordered). -/
def JObj : Type := List (String × JVal)

/-- `dados.get(k)`. -/
def jget : List (String × JVal) → String → Option JVal
  | [], _ => none
  | (k', v) :: rest, k => if k' = k then some v else jget rest k

/-- `dados[k] = v` (replace in place, else append). -/
def jset : List (String × JVal) → String → JVal → List (String × JVal)
  | [], k, v => [(k, v)]
  | (k', v') :: rest, k, v =>
    if k' = k then (k, v) :: rest else (k', v') :: jset rest k v

/-- Truthiness of `dados.get(k)` (`None` is falsy). -/
def truthyOpt : Option JVal → Bool
  | none => false
  | some v => truthy v

/-! ## Shared lemmas for the claims -/

theorem retrieve_map_fst (sims : List ℚ) (k : ℕ) :
    (retrieve sims k).map Prod.fst = topIndices sims k := by
  rw [retrieve, List.map_map]
  exact List.map_id _

/-- If `a`'s key is below `b`'s, and both are selected, `b` appears at an
earlier position of the top-k list than `a`. -/
theorem key_before_in_topIndices {sims : List ℚ} {k a b : ℕ} (hab : ltKey sims a b)
    (ha : a ∈ topIndices sims k) (hb : b ∈ topIndices sims k) :
    ∃ (p : ℕ) (q : ℕ) (hp : p < (topIndices sims k).length)
      (hq : q < (topIndices sims k).length),
      p < q ∧ (topIndices sims k).get ⟨p, hp⟩ = b ∧ (topIndices sims k).get ⟨q, hq⟩ = a := by
  have hPW : (topIndices sims k).Pairwise (fun i j => ltKey sims j i) :=
    topIndices_pairwise sims k
  rcases List.mem_iff_get.mp ha with ⟨pa, hpa⟩
  rcases List.mem_iff_get.mp hb with ⟨pb, hpb⟩
  have hget := List.pairwise_iff_get.mp hPW
  have hne : pb < pa := by
    rcases lt_trichotomy pa pb with h | h | h
    · have h2 := hget pa pb h
      rw [hpa, hpb] at h2
      exact absurd h2 (ltKey_asymm hab)
    · exfalso
      have hba : a = b := by rw [← hpa, ← hpb, h]
      subst hba
      exact ltKey_irrefl a hab
    · exact h
  exact ⟨pb.1, pa.1, pb.2, pa.2, hne, hpb, hpa⟩

/-- C1: for every non-empty fragment sequence whose embeddings all have the
query's dimensionality and every positive `k`, the retrieval step returns
exactly `min k n` results (`n` = number of fragments), ordered highest
similarity first with non-increasing scores, the selection is a prefix of
the full descending ranking (no fragment with strictly higher similarity to
the query is excluded while one with strictly lower similarity is
included), and `k ≥ n` returns all `n` fragments ranked, without error.
Scores are in the order- and tie-preserving signed-square representation
(`cosineSimSq_eq_signedSq`, `signedSq_strictMono`). -/
theorem c1_retrieve_min_k_sorted_topk (q : List ℚ) (embs : List (List ℚ)) (k : ℕ)
    (hne : embs ≠ []) (hk : 0 < k) (hdim : ∀ e ∈ embs, e.length = q.length) :
    (retrieve (embs.map (cosineSimSq q)) k).length = min k embs.length ∧
    List.Chain' (fun p r : ℕ × ℚ => r.2 ≤ p.2) (retrieve (embs.map (cosineSimSq q)) k) ∧
    (∀ p ∈ retrieve (embs.map (cosineSimSq q)) k,
      p.1 < embs.length ∧ p.2 = scoreAt (embs.map (cosineSimSq q)) p.1) ∧
    (topIndices (embs.map (cosineSimSq q)) k).Nodup ∧
    (∀ i < embs.length, i ∉ topIndices (embs.map (cosineSimSq q)) k →
      ∀ p ∈ retrieve (embs.map (cosineSimSq q)) k,
        scoreAt (embs.map (cosineSimSq q)) i ≤ p.2) ∧
    (embs.length ≤ k →
      ((retrieve (embs.map (cosineSimSq q)) k).map Prod.fst).Perm
        (List.range embs.length)) := by
  have hk0 : k ≠ 0 := Nat.pos_iff_ne_zero.mp hk
  have hlen : (embs.map (cosineSimSq q)).length = embs.length := List.length_map embs _
  refine ⟨?_, ?_, ?_, ?_, ?_, ?_⟩
  · rw [retrieve, List.length_map, topIndices_length hk0, hlen]
  · have hp := topIndices_pairwise (embs.map (cosineSimSq q)) k
    refine List.Pairwise.chain' ?_
    rw [retrieve]
    refine (List.pairwise_map).mpr (hp.imp ?_)
    intro i j hij
    rcases hij with h | ⟨h, _⟩
    · exact le_of_lt h
    · exact le_of_eq h
  · intro p hp
    rcases List.mem_map.mp hp with ⟨i, hi, rfl⟩
    exact ⟨hlen ▸ mem_topIndices_sub hi, rfl⟩
  · exact topIndices_nodup _ k
  · intro i hi hni p hp
    rcases List.mem_map.mp hp with ⟨j, hj, rfl⟩
    exact excluded_le_included hk0 (hlen ▸ hi) hni hj
  · intro hle
    rw [retrieve_map_fst, topIndices_eq hk0]
    have h0 : (embs.map (cosineSimSq q)).length - k = 0 := by omega
    rw [h0, List.drop_zero]
    exact (List.reverse_perm _).trans ((argsortAsc_perm _).trans (by rw [hlen]))

/-- Witness for C1 at the spec's own example (`F1=[1,0]`, `F2=[0,1]`,
`F3=[1,1]`, query `[1,0]`, `k=2`). -/
theorem c1_witness :
    (retrieve ([[1, 0], [0, 1], [1, 1]].map (cosineSimSq [1, 0])) 2).length = min 2 3 :=
  (c1_retrieve_min_k_sorted_topk [1, 0] [[1, 0], [0, 1], [1, 1]] 2
    (by decide) (by decide) (by decide)).1

/-- C2 counterexample: two fragments with equal cosine similarity to the
query (`[1,0]` and `[2,0]` both have similarity 1 to query `[1,0]`, so the
similarity vector is `[1, 1]`); the code's `argsort()[-k:][::-1]` puts the
*later* fragment (index 1) first, so the "earlier fragment wins" tie-break
of the claim fails. -/
theorem c2_counterexample :
    [[1, 0], [2, 0]].map (cosineSimSq [1, 0]) = [(1 : ℚ), 1] ∧
    (retrieve [(1 : ℚ), 1] TOP_K_RAG).map Prod.fst = [1, 0] ∧
    (retrieve [(1 : ℚ), 1] TOP_K_RAG).map Prod.fst ≠ [0, 1] := by
  refine ⟨?_, by decide, by decide⟩
  norm_num [cosineSimSq, dotL, normSq]

/-- C2 amended: the "earlier fragment wins" tie-break does not hold; tie
order is implementation-defined in general (`similarities.argsort()` uses
numpy's default sort, which is documented not stable above its
insertion-sort cutoff), and in the at-most-16-fragment regime — where
numpy's quicksort runs its stable insertion-sort base case, so the model
provably matches the program — the tie-break is the *reverse* of insertion
order: of two selected fragments with numerically equal similarity, the
one appearing later in the input appears earlier in the output (ascending
argsort followed by the `[::-1]` reversal). -/
theorem c2_amended_tie_later_first (sims : List ℚ) (k i j : ℕ)
    (hsmall : sims.length ≤ 16) (hij : i < j)
    (htie : scoreAt sims i = scoreAt sims j)
    (hi : i ∈ topIndices sims k) (hj : j ∈ topIndices sims k) :
    ∃ (p : ℕ) (q : ℕ) (hp : p < (topIndices sims k).length)
      (hq : q < (topIndices sims k).length),
      p < q ∧ (topIndices sims k).get ⟨p, hp⟩ = j ∧ (topIndices sims k).get ⟨q, hq⟩ = i :=
  key_before_in_topIndices (Or.inr ⟨htie, hij⟩) hi hj

/-- Witness for the amended C2 at the counterexample input. -/
theorem c2_amended_witness :
    ∃ (p : ℕ) (q : ℕ) (hp : p < (topIndices [(1 : ℚ), 1] TOP_K_RAG).length)
      (hq : q < (topIndices [(1 : ℚ), 1] TOP_K_RAG).length),
      p < q ∧ (topIndices [(1 : ℚ), 1] TOP_K_RAG).get ⟨p, hp⟩ = 1 ∧
        (topIndices [(1 : ℚ), 1] TOP_K_RAG).get ⟨q, hq⟩ = 0 :=
  c2_amended_tie_later_first [(1 : ℚ), 1] TOP_K_RAG 0 1 (by decide) (by decide)
    (by decide) (by decide) (by decide)

/-- C6: `executar_rag` (and its retrieval core) is deterministic — two runs
on identical inputs return identical results — and, being modelled as a
pure function of its arguments, has no side effects. -/
theorem c6_deterministic_pure (q : List ℚ) (chunks : List String) (embs : List (List ℚ))
    (resumir : String → String) :
    executar_rag q chunks embs resumir = executar_rag q chunks embs resumir ∧
    retrieve (embs.map (cosineSimSq q)) TOP_K_RAG
      = retrieve (embs.map (cosineSimSq q)) TOP_K_RAG :=
  ⟨rfl, rfl⟩

/-- C10: in app.py's retrieval, every index used to look up a chunk has
passed the `i < len(all_chunks)` filter, so the lookup never goes out of
range (no index is dropped by the subsequent total lookup). -/
theorem c10_app_selection_in_bounds (chunks : List ChunkRec) (sims : List ℚ)
    (hne : sims ≠ []) :
    (∀ i ∈ appTopIndices chunks.length sims, i < chunks.length) ∧
    (selecionadosApp chunks sims).length = (appTopIndices chunks.length sims).length := by
  have hbound : ∀ i ∈ appTopIndices chunks.length sims, i < chunks.length := by
    intro i hi
    have := List.of_mem_filter hi
    exact of_decide_eq_true this
  refine ⟨hbound, ?_⟩
  rw [selecionadosApp]
  generalize hL : appTopIndices chunks.length sims = L at hbound
  clear hL
  induction L with
  | nil => rfl
  | cons i rest ih =>
    have hi : i < chunks.length := hbound i (List.mem_cons_self i rest)
    rw [List.filterMap_cons, List.getElem?_eq_getElem hi]
    simp only [List.length_cons]
    rw [ih fun x hx => hbound x (List.mem_cons_of_mem i hx)]

/-- Witness for C10. -/
theorem c10_witness :
    (selecionadosApp [⟨"a", "b"⟩] [1, 2]).length
      = (appTopIndices ([⟨"a", "b"⟩] : List ChunkRec).length [1, 2]).length :=
  (c10_app_selection_in_bounds [⟨"a", "b"⟩] [1, 2] (by decide)).2

/-! ## C3 / C9: error behaviour and context truncation of `executar_rag` -/

theorem cosineSimilarityRow_ok_iff (q : List ℚ) (embs : List (List ℚ)) :
    (∃ sims, cosineSimilarityRow q embs = Except.ok sims) ↔
      (embs ≠ [] ∧ ∀ e ∈ embs, e.length = q.length) := by
  unfold cosineSimilarityRow
  by_cases h1 : embs = []
  · simp [h1]
  · rw [if_neg h1]
    by_cases h2 : embs.any (fun e => e.length != q.length) = true
    · rw [if_pos h2]
      constructor
      · rintro ⟨sims, hs⟩
        cases hs
      · rintro ⟨-, hall⟩
        rcases List.any_eq_true.mp h2 with ⟨e, he, hne⟩
        exact absurd (hall e he) (bne_iff_ne.mp hne)
    · rw [if_neg h2]
      constructor
      · intro hsome
        refine ⟨h1, ?_⟩
        intro e he
        by_contra hcon
        exact h2 (List.any_eq_true.mpr ⟨e, he, bne_iff_ne.mpr hcon⟩)
      · intro hrhs
        exact ⟨embs.map (cosineSimSq q), rfl⟩

theorem cosineSimilarityRow_ok_val {q : List ℚ} {embs : List (List ℚ)} {sims : List ℚ}
    (h : cosineSimilarityRow q embs = Except.ok sims) :
    sims = embs.map (cosineSimSq q) := by
  unfold cosineSimilarityRow at h
  by_cases h1 : embs = []
  · rw [if_pos h1] at h
    cases h
  · rw [if_neg h1] at h
    by_cases h2 : embs.any (fun e => e.length != q.length) = true
    · rw [if_pos h2] at h
      cases h
    · rw [if_neg h2] at h
      injection h with h
      exact h.symm

theorem selContents_ok (chunks : List String) :
    ∀ idxs : List ℕ, (∀ i ∈ idxs, i < chunks.length) →
      ∃ l, selContents chunks idxs = Except.ok l := by
  intro idxs
  induction idxs with
  | nil =>
    intro _
    exact ⟨[], rfl⟩
  | cons i rest ih =>
    intro h
    have hi : i < chunks.length := h i (List.mem_cons_self i rest)
    rcases ih (fun x hx => h x (List.mem_cons_of_mem i hx)) with ⟨l, hl⟩
    have hsome : chunks[i]? = some chunks[i] := List.getElem?_eq_getElem hi
    refine ⟨chunks[i] :: l, ?_⟩
    simp only [selContents, hsome, hl]

theorem executarRagBody_ok_iff (q : List ℚ) (chunks : List String)
    (embs : List (List ℚ)) (resumir : String → String)
    (hlen : chunks.length = embs.length) :
    (∃ s, executarRagBody q chunks embs resumir = Except.ok s) ↔
      (embs ≠ [] ∧ ∀ e ∈ embs, e.length = q.length) := by
  constructor
  · rintro ⟨s, hs⟩
    unfold executarRagBody at hs
    rcases hcr : cosineSimilarityRow q embs with e | sims
    · rw [hcr] at hs
      cases hs
    · exact (cosineSimilarityRow_ok_iff q embs).mp ⟨sims, hcr⟩
  · rintro ⟨h1, h2⟩
    rcases (cosineSimilarityRow_ok_iff q embs).mpr ⟨h1, h2⟩ with ⟨sims, hcr⟩
    have hval := cosineSimilarityRow_ok_val hcr
    have hslen : sims.length = embs.length := by
      rw [hval, List.length_map]
    have hb : ∀ i ∈ topIndices sims TOP_K_RAG, i < chunks.length := by
      intro i hi
      have := mem_topIndices_sub hi
      omega
    rcases selContents_ok chunks _ hb with ⟨l, hl⟩
    refine ⟨truncateCtx (String.intercalate "\n---\n" (l.map (resumoOf resumir))), ?_⟩
    unfold executarRagBody
    rw [hcr]
    dsimp only
    rw [hl]

/-- C3 counterexample: on an empty fragment sequence the similarity step
does raise internally, but `executar_rag` catches every exception and
returns the empty string to its caller — it does not fail with an
`InvalidInput` error, as the claim states. -/
theorem c3_counterexample :
    executarRagBody [1] [] [] (fun s => s)
      = Except.error "ValueError: Expected 2D array" ∧
    executar_rag [1] [] [] (fun s => s) = "" := ⟨rfl, rfl⟩

/-- C3 amended: the similarity computation inside `executar_rag` fails
exactly when the fragment sequence is empty or some embedding's
dimensionality disagrees with the query's (`k` is the fixed positive
constant `TOP_K_RAG = 3`, so non-positive `k` cannot arise); no partial or
truncated result escapes, and a dimensionality mismatch is never masked by
truncation or padding — but the surrounding `except` clause catches the
error and returns the empty-string sentinel instead of raising
`InvalidInput` to the caller. -/
theorem c3_amended_error_swallowed (q : List ℚ) (chunks : List String)
    (embs : List (List ℚ)) (resumir : String → String)
    (hlen : chunks.length = embs.length) :
    ((∃ s, executarRagBody q chunks embs resumir = Except.ok s) ↔
      (embs ≠ [] ∧ ∀ e ∈ embs, e.length = q.length)) ∧
    (∀ err, executarRagBody q chunks embs resumir = Except.error err →
      executar_rag q chunks embs resumir = "") := by
  refine ⟨executarRagBody_ok_iff q chunks embs resumir hlen, ?_⟩
  intro err herr
  unfold executar_rag
  rw [herr]

/-- Witness for the amended C3. -/
theorem c3_amended_witness :
    (∃ s, executarRagBody [1] ["a"] [[1]] (fun s => s) = Except.ok s) ↔
      (([[(1 : ℚ)]] : List (List ℚ)) ≠ [] ∧
        ∀ e ∈ ([[(1 : ℚ)]] : List (List ℚ)), e.length = [(1 : ℚ)].length) :=
  (c3_amended_error_swallowed [1] ["a"] [[1]] (fun s => s) rfl).1

theorem truncateCtx_facts (ctx : String) :
    (truncateCtx ctx).length ≤ 3020 ∧
    (3000 < ctx.length →
      truncateCtx ctx = pyTake ctx 3000 ++ "... [texto truncado]" ∧
        (truncateCtx ctx).length = 3020) ∧
    (ctx.length ≤ 3000 → truncateCtx ctx = ctx) := by
  have hsuf : ("... [texto truncado]" : String).length = 20 := rfl
  unfold truncateCtx
  by_cases h : ctx.length > 3000
  · rw [if_pos h]
    have hlen : (pyTake ctx 3000 ++ "... [texto truncado]").length = 3020 := by
      rw [String.length_append, pyTake_length, hsuf]
      omega
    exact ⟨le_of_eq hlen, fun _ => ⟨rfl, hlen⟩, fun hc => absurd h (not_lt.mpr hc)⟩
  · rw [if_neg h]
    exact ⟨by omega, fun hc => absurd hc h, fun _ => rfl⟩

/-- C9: whenever the RAG step succeeds, the returned context string is the
truncation of the joined summaries: it never exceeds 3020 characters
(3000 plus the 20-character suffix `"... [texto truncado]"`), it equals
the first 3000 characters plus that suffix whenever the joined summaries
exceed 3000 characters, and it is the joined summaries unchanged
otherwise. -/
theorem c9_context_bounded (q : List ℚ) (chunks : List String)
    (embs : List (List ℚ)) (resumir : String → String) (s : String)
    (hok : executarRagBody q chunks embs resumir = Except.ok s) :
    s.length ≤ 3020 ∧
    ∃ ctx : String, s = truncateCtx ctx ∧
      (3000 < ctx.length →
        s = pyTake ctx 3000 ++ "... [texto truncado]" ∧ s.length = 3020) ∧
      (ctx.length ≤ 3000 → s = ctx) := by
  unfold executarRagBody at hok
  rcases hcr : cosineSimilarityRow q embs with e | sims
  · rw [hcr] at hok
    cases hok
  · rw [hcr] at hok
    dsimp only at hok
    rcases hsel : selContents chunks (topIndices sims TOP_K_RAG) with e | sel
    · rw [hsel] at hok
      cases hok
    · rw [hsel] at hok
      injection hok with hok
      subst hok
      rcases truncateCtx_facts
          (String.intercalate "\n---\n" (sel.map (resumoOf resumir))) with ⟨hb, ht, hu⟩
      exact ⟨hb, _, rfl, ht, hu⟩

/-- Witness for C9 on a one-fragment corpus with a short summary. -/
theorem c9_witness :
    ("a" : String).length ≤ 3020 ∧
    ∃ ctx : String, "a" = truncateCtx ctx ∧
      (3000 < ctx.length →
        "a" = pyTake ctx 3000 ++ "... [texto truncado]" ∧ ("a" : String).length = 3020) ∧
      (ctx.length ≤ 3000 → "a" = ctx) :=
  c9_context_bounded [1] ["a"] [[1]] (fun _ => "a") "a" rfl

/-! ## C4: zero-norm embeddings -/

theorem cosineSimSq_zero_norm (q f : List ℚ) (hf : normSq f = 0) :
    cosineSimSq q f = 0 := by
  unfold cosineSimSq
  rw [hf, mul_zero, if_pos rfl]

/-- C4 counterexample: with query `[1,0]`, the zero-vector fragment
`[0,0]` gets score 0 while fragment `[-1,0]` gets the strictly smaller
score −1; with `k = 1` the zero-vector fragment (index 1) is selected and
the negative-similarity fragment excluded, so a zero-vector fragment does
*not* rank as if it had the lowest possible similarity. -/
theorem c4_counterexample :
    cosineSimSq [1, 0] [0, 0] = 0 ∧
    cosineSimSq [1, 0] [-1, 0] = -1 ∧
    [[-1, 0], [0, 0]].map (cosineSimSq [1, 0]) = [(-1 : ℚ), 0] ∧
    (retrieve [(-1 : ℚ), 0] 1).map Prod.fst = [1] := by
  refine ⟨?_, ?_, ?_, by decide⟩ <;> norm_num [cosineSimSq, dotL, normSq]

/-- C4 amended: the similarity computation never raises a division error
(it is a total function) and yields score 0 whenever either vector has
zero norm — in particular for a zero-vector fragment — and such a fragment
ranks above every selected fragment with strictly negative similarity and
below every selected fragment with strictly positive similarity; it does
*not* in general rank as if it had the lowest possible similarity, because
strictly negative similarities rank below it. -/
theorem c4_amended_zero_scores_middle (q f : List ℚ) (hf : normSq f = 0)
    (sims : List ℚ) (k i jneg jpos : ℕ)
    (hi0 : scoreAt sims i = 0)
    (hneg : scoreAt sims jneg < 0) (hpos : 0 < scoreAt sims jpos)
    (hi : i ∈ topIndices sims k) (hn : jneg ∈ topIndices sims k)
    (hp : jpos ∈ topIndices sims k) :
    cosineSimSq q f = 0 ∧
    (∃ (p : ℕ) (r : ℕ) (hpb : p < (topIndices sims k).length)
      (hrb : r < (topIndices sims k).length),
      p < r ∧ (topIndices sims k).get ⟨p, hpb⟩ = i ∧
        (topIndices sims k).get ⟨r, hrb⟩ = jneg) ∧
    (∃ (p : ℕ) (r : ℕ) (hpb : p < (topIndices sims k).length)
      (hrb : r < (topIndices sims k).length),
      p < r ∧ (topIndices sims k).get ⟨p, hpb⟩ = jpos ∧
        (topIndices sims k).get ⟨r, hrb⟩ = i) := by
  refine ⟨cosineSimSq_zero_norm q f hf, ?_, ?_⟩
  · exact key_before_in_topIndices (Or.inl (by rw [hi0]; exact hneg)) hn hi
  · exact key_before_in_topIndices (Or.inl (by rw [hi0]; exact hpos)) hi hp

/-- Witness for the amended C4 with similarity vector `[-1, 0, 1]`
(zero-scored fragment 1, negative fragment 0, positive fragment 2). -/
theorem c4_amended_witness :
    cosineSimSq [1, 0] [0, 0] = 0 ∧
    (∃ (p : ℕ) (r : ℕ) (hpb : p < (topIndices [(-1 : ℚ), 0, 1] TOP_K_RAG).length)
      (hrb : r < (topIndices [(-1 : ℚ), 0, 1] TOP_K_RAG).length),
      p < r ∧ (topIndices [(-1 : ℚ), 0, 1] TOP_K_RAG).get ⟨p, hpb⟩ = 1 ∧
        (topIndices [(-1 : ℚ), 0, 1] TOP_K_RAG).get ⟨r, hrb⟩ = 0) ∧
    (∃ (p : ℕ) (r : ℕ) (hpb : p < (topIndices [(-1 : ℚ), 0, 1] TOP_K_RAG).length)
      (hrb : r < (topIndices [(-1 : ℚ), 0, 1] TOP_K_RAG).length),
      p < r ∧ (topIndices [(-1 : ℚ), 0, 1] TOP_K_RAG).get ⟨p, hpb⟩ = 2 ∧
        (topIndices [(-1 : ℚ), 0, 1] TOP_K_RAG).get ⟨r, hrb⟩ = 1) :=
  c4_amended_zero_scores_middle [1, 0] [0, 0] (by norm_num [normSq, dotL])
    [(-1 : ℚ), 0, 1] TOP_K_RAG 1 0 2 (by decide) (by decide) (by decide)
    (by decide) (by decide) (by decide)

/-! ## C5: the embedding batching policy -/

/-- Within a batch, every text after the first was appended because it did
not push the running total over the budget. -/
def batchInternalOK (b : List String) : Prop :=
  ∀ p t rest, b = p ++ t :: rest → p ≠ [] → sumLen p + t.length ≤ MAX_BATCH_CHARS

theorem batchLoop_flatten : ∀ (ts cur : List String) (size : ℕ),
    (batchLoop ts cur size).flatten = cur ++ ts := by
  intro ts
  induction ts with
  | nil =>
    intro cur size
    unfold batchLoop
    by_cases h : cur = []
    · simp [h]
    · simp [h]
  | cons t ts ih =>
    intro cur size
    unfold batchLoop
    by_cases hc : size + t.length > MAX_BATCH_CHARS ∧ cur ≠ []
    · rw [if_pos hc, List.flatten_cons, ih]
      simp
    · rw [if_neg hc, ih]
      simp

theorem batchLoop_ne_nil : ∀ (ts cur : List String) (size : ℕ) (b : List String),
    b ∈ batchLoop ts cur size → b ≠ [] := by
  intro ts
  induction ts with
  | nil =>
    intro cur size b hb
    unfold batchLoop at hb
    by_cases h : cur = []
    · rw [if_pos h] at hb
      exact absurd hb (List.not_mem_nil b)
    · rw [if_neg h] at hb
      rw [List.mem_singleton] at hb
      exact hb ▸ h
  | cons t ts ih =>
    intro cur size b hb
    unfold batchLoop at hb
    by_cases hc : size + t.length > MAX_BATCH_CHARS ∧ cur ≠ []
    · rw [if_pos hc] at hb
      rcases List.mem_cons.mp hb with rfl | hb
      · exact hc.2
      · exact ih _ _ b hb
    · rw [if_neg hc] at hb
      exact ih _ _ b hb

theorem batchLoop_head : ∀ (ts cur : List String) (size : ℕ), cur ≠ [] →
    ∃ b bs, batchLoop ts cur size = b :: bs ∧ b.headD "" = cur.headD "" := by
  intro ts
  induction ts with
  | nil =>
    intro cur size h
    refine ⟨cur, [], ?_, rfl⟩
    unfold batchLoop
    rw [if_neg h]
  | cons t ts ih =>
    intro cur size h
    unfold batchLoop
    by_cases hc : size + t.length > MAX_BATCH_CHARS ∧ cur ≠ []
    · rw [if_pos hc]
      exact ⟨cur, _, rfl, rfl⟩
    · rw [if_neg hc]
      rcases ih (cur ++ [t]) (size + t.length) (by simp) with ⟨b, bs, h1, h2⟩
      refine ⟨b, bs, h1, ?_⟩
      rw [h2]
      cases cur with
      | nil => exact absurd rfl h
      | cons c cs => rfl

theorem batchLoop_chain : ∀ (ts cur : List String) (size : ℕ), size = sumLen cur →
    List.Chain' (fun b1 b2 => MAX_BATCH_CHARS < sumLen b1 + (b2.headD "").length)
      (batchLoop ts cur size) := by
  intro ts
  induction ts with
  | nil =>
    intro cur size hsz
    unfold batchLoop
    by_cases h : cur = []
    · rw [if_pos h]
      exact List.chain'_nil
    · rw [if_neg h]
      exact List.chain'_singleton _
  | cons t ts ih =>
    intro cur size hsz
    unfold batchLoop
    by_cases hc : size + t.length > MAX_BATCH_CHARS ∧ cur ≠ []
    · rw [if_pos hc]
      refine List.chain'_cons'.mpr ⟨?_, ih [t] t.length (by simp [sumLen])⟩
      intro b hb
      rcases batchLoop_head ts [t] t.length (by simp) with ⟨b0, bs, heq, hhd⟩
      rw [heq] at hb
      have hb0 : b0 = b := by simpa using hb
      subst hb0
      rw [hhd]
      show MAX_BATCH_CHARS < sumLen cur + t.length
      rw [← hsz]
      exact hc.1
    · rw [if_neg hc]
      exact ih (cur ++ [t]) (size + t.length) (by simp [sumLen, hsz])

theorem batchLoop_internal : ∀ (ts cur : List String) (size : ℕ),
    size = sumLen cur → batchInternalOK cur →
    ∀ b ∈ batchLoop ts cur size, batchInternalOK b := by
  intro ts
  induction ts with
  | nil =>
    intro cur size hsz hok b hb
    unfold batchLoop at hb
    by_cases h : cur = []
    · rw [if_pos h] at hb
      exact absurd hb (List.not_mem_nil b)
    · rw [if_neg h] at hb
      rw [List.mem_singleton] at hb
      exact hb ▸ hok
  | cons t ts ih =>
    intro cur size hsz hok b hb
    unfold batchLoop at hb
    by_cases hc : size + t.length > MAX_BATCH_CHARS ∧ cur ≠ []
    · rw [if_pos hc] at hb
      rcases List.mem_cons.mp hb with rfl | hb
      · exact hok
      · refine ih [t] t.length (by simp [sumLen]) ?_ b hb
        intro p t' rest hpe hpne
        exfalso
        have hlen := congrArg List.length hpe
        simp [List.length_append] at hlen
        have hp0 : p.length = 0 := by omega
        exact hpne (List.eq_nil_of_length_eq_zero hp0)
    · rw [if_neg hc] at hb
      refine ih (cur ++ [t]) (size + t.length) (by simp [sumLen, hsz]) ?_ b hb
      intro p t' rest hpe hpne
      rcases List.eq_nil_or_concat rest with hrest | ⟨r, last, hrest⟩
      · subst hrest
        rcases List.append_inj' hpe rfl with ⟨h1, h2⟩
        have ht : t = t' := by
          injection h2
        have hcur : cur ≠ [] := by
          rw [h1]
          exact hpne
        have hle : size + t.length ≤ MAX_BATCH_CHARS := by
          rcases not_and_or.mp hc with h | h
          · omega
          · exact absurd hcur h
        rw [← h1, ← ht, ← hsz]
        exact hle
      · subst hrest
        have heq2 : cur ++ [t] = (p ++ t' :: r) ++ [last] := by
          rw [hpe, List.concat_eq_append]
          simp
        rcases List.append_inj' heq2 rfl with ⟨h1, h2⟩
        exact hok p t' r h1 hpne

/-- C5: the batching policy of `gerar_embeddings` flushes a batch exactly
when adding the next fragment's text would exceed the 15000-character
budget (each batch is non-empty; consecutive batches certify that the
flush was forced; within a batch no append overran the budget), the final
partial batch is always flushed, every fragment's text is embedded exactly
once in input order (the concatenation of the batches is the input
sequence), and the concatenated batch outputs realign one-to-one with the
input fragments. -/
theorem c5_batching_exact (embed : String → List ℚ) (chunks : List ChunkRec) :
    (makeBatches (chunks.map ChunkRec.content)).flatten = chunks.map ChunkRec.content ∧
    (∀ b ∈ makeBatches (chunks.map ChunkRec.content), b ≠ []) ∧
    List.Chain' (fun b1 b2 => MAX_BATCH_CHARS < sumLen b1 + (b2.headD "").length)
      (makeBatches (chunks.map ChunkRec.content)) ∧
    (∀ b ∈ makeBatches (chunks.map ChunkRec.content), batchInternalOK b) ∧
    gerar_embeddings embed chunks = (chunks.map ChunkRec.content).map embed := by
  refine ⟨batchLoop_flatten _ [] 0, fun b hb => batchLoop_ne_nil _ _ _ b hb,
    batchLoop_chain _ [] 0 rfl, fun b hb => batchLoop_internal _ [] 0 rfl ?_ b hb, ?_⟩
  · intro p t rest hpe hpne
    exfalso
    cases p with
    | nil => exact hpne rfl
    | cons a as => cases hpe
  · unfold gerar_embeddings makeBatches
    rw [← List.map_flatten, batchLoop_flatten, List.nil_append]

/-! ## C7: the per-fragment character cap of `processar_pdfs` -/

/-- C7: every fragment produced by the chunking step has content of at
most `MAX_CHARS = 4000` characters, for every source text and every
behaviour of the text splitter, before being embedded. -/
theorem c7_chunk_cap (split : String → List String) (blobs : List (String × String)) :
    ∀ c ∈ processar_pdfs split blobs, c.content.length ≤ MAX_CHARS := by
  intro c hc
  unfold processar_pdfs at hc
  rcases List.mem_flatMap.mp hc with ⟨b, hb, hcb⟩
  by_cases h1 : endsWithPdf b.1
  · rw [if_pos h1] at hcb
    by_cases h2 : pyStrip b.2 = ""
    · rw [if_pos h2] at hcb
      exact absurd hcb (List.not_mem_nil c)
    · rw [if_neg h2] at hcb
      rcases List.mem_map.mp hcb with ⟨s, hs, rfl⟩
      unfold safeChunks at hs
      rcases List.mem_map.mp hs with ⟨c0, _, rfl⟩
      show (if c0.length > MAX_CHARS then pyTake c0 MAX_CHARS else c0).length ≤ MAX_CHARS
      by_cases h3 : c0.length > MAX_CHARS
      · rw [if_pos h3, pyTake_length]
        omega
      · rw [if_neg h3]
        omega
  · rw [if_neg h1] at hcb
    exact absurd hcb (List.not_mem_nil c)

/-- Witness for C7. -/
theorem c7_witness : (ChunkRec.mk "a.pdf" "ola").content.length ≤ MAX_CHARS :=
  c7_chunk_cap (fun t => [t]) [("a.pdf", "ola")] ⟨"a.pdf", "ola"⟩ (by decide)

/-! ## C8: post-processing of the generated APR record -/

def K_EPIS : String := "epis_obrigatorios"

def K_PROC : String := "procedimentos_emergencia"

def defaultEpis : JVal :=
  JVal.jarr [JVal.jstr "Capacete", JVal.jstr "Botas", JVal.jstr "Luvas", JVal.jstr "Óculos"]

def defaultProc : JVal :=
  JVal.jstr "Acionar brigada de emergência, aplicar primeiros socorros, evacuar a área e acionar o Corpo de Bombeiros (193)."

def cintoEpi : JVal := JVal.jstr "Cinto de segurança tipo paraquedista com talabarte duplo"

def confinadoEpis : List JVal :=
  [JVal.jstr "Detector de gases", JVal.jstr "Máscara com filtro",
    JVal.jstr "Cinturão de segurança"]

/-- `dados[k].append(v)` / `dados[k] += vs`: Python raises (`KeyError` /
`AttributeError` / `TypeError`) unless the stored value is a list. -/
def appendToList (dados : List (String × JVal)) (k : String) (vs : List JVal) :
    Except String (List (String × JVal)) :=
  match jget dados k with
  | some (JVal.jarr xs) => Except.ok (jset dados k (JVal.jarr (xs ++ vs)))
  | some _ => Except.error "TypeError"
  | none => Except.error "KeyError"

/-- `if not dados_da_apr.get("epis_obrigatorios"): ...` default step. -/
def aprStep1 (dados : List (String × JVal)) : List (String × JVal) :=
  if truthyOpt (jget dados K_EPIS) then dados else jset dados K_EPIS defaultEpis

/-- `"altura" in atividade or "andaime" in atividade`. -/
def alturaCond (atividade : String) : Bool :=
  containsSub atividade "altura" || containsSub atividade "andaime"

/-- `"confinado" in atividade or "espaço confinado" in atividade`. -/
def confinadoCond (atividade : String) : Bool :=
  containsSub atividade "confinado" || containsSub atividade "espaço confinado"

/-- `if not dados_da_apr.get("procedimentos_emergencia"): ...` default. -/
def aprStep4 (dados : List (String × JVal)) : List (String × JVal) :=
  if truthyOpt (jget dados K_PROC) then dados else jset dados K_PROC defaultProc

/-- The post-processing block of `gerar_apr_ia` (`src/pipeline.py` lines
302–317) on the parsed JSON record: substitute the default EPI list when
the field is falsy, extend it for height/confined-space activities (which
raises if the field value is not a list — the exception escapes to the
enclosing `except` and `gerar_apr_ia` then returns `None`, i.e. no
record), and substitute the default emergency procedure when falsy. -/
def aprPosProcess (tarefa : String) (dados : List (String × JVal)) :
    Except String (List (String × JVal)) :=
  match (if alturaCond (pyLower tarefa) then
          appendToList (aprStep1 dados) K_EPIS [cintoEpi]
         else Except.ok (aprStep1 dados)) with
  | Except.error e => Except.error e
  | Except.ok d2 =>
    match (if confinadoCond (pyLower tarefa) then appendToList d2 K_EPIS confinadoEpis
           else Except.ok d2) with
    | Except.error e => Except.error e
    | Except.ok d3 => Except.ok (aprStep4 d3)

/-- `some (jarr ...)` test, to state that a field holds a JSON list. -/
def isList : Option JVal → Bool
  | some (JVal.jarr _) => true
  | _ => false

theorem jget_jset_self (o : List (String × JVal)) (k : String) (v : JVal) :
    jget (jset o k v) k = some v := by
  induction o with
  | nil => simp [jset, jget]
  | cons h rest ih =>
    rcases h with ⟨k', v'⟩
    by_cases hk : k' = k
    · simp [jset, hk, jget]
    · simp [jset, hk, jget, ih]

theorem jget_jset_other (o : List (String × JVal)) (k k' : String) (v : JVal)
    (h : k ≠ k') : jget (jset o k v) k' = jget o k' := by
  induction o with
  | nil => simp [jset, jget, h]
  | cons hd rest ih =>
    rcases hd with ⟨a, b⟩
    by_cases ha : a = k
    · simp [jset, ha, jget, h]
    · by_cases ha' : a = k'
      · simp [jset, ha, jget, ha', Ne.symm h]
      · simp [jset, ha, jget, ha', ih]

theorem appendToList_ok {dados : List (String × JVal)} {k : String} {vs : List JVal}
    {out : List (String × JVal)} (h : appendToList dados k vs = Except.ok out)
    (ht : truthyOpt (jget dados k) = true) :
    truthyOpt (jget out k) = true ∧ ∀ k', k ≠ k' → jget out k' = jget dados k' := by
  unfold appendToList at h
  rcases hv : jget dados k with _ | v
  · rw [hv] at h
    cases h
  · rw [hv] at h
    cases v with
    | jarr xs =>
      injection h with h
      subst h
      constructor
      · rw [jget_jset_self]
        rw [hv] at ht
        cases xs with
        | nil => simp [truthyOpt, truthy] at ht
        | cons x xs => simp [truthyOpt, truthy]
      · intro k' hk
        exact jget_jset_other dados k k' _ hk
    | jnull => cases h
    | jbool b => cases h
    | jnum n => cases h
    | jstr s => cases h
    | jobj fs => cases h

theorem aprStep1_truthy (dados : List (String × JVal)) :
    truthyOpt (jget (aprStep1 dados) K_EPIS) = true := by
  unfold aprStep1
  by_cases h : truthyOpt (jget dados K_EPIS) = true
  · rw [if_pos h]
    exact h
  · rw [if_neg h, jget_jset_self]
    rfl

theorem condAppend_truthy {c : Bool} {d1 d2 : List (String × JVal)} {vs : List JVal}
    (h : (if c = true then appendToList d1 K_EPIS vs else Except.ok d1) = Except.ok d2)
    (ht : truthyOpt (jget d1 K_EPIS) = true) :
    truthyOpt (jget d2 K_EPIS) = true := by
  cases c with
  | false =>
    rw [if_neg Bool.false_ne_true] at h
    injection h with h
    subst h
    exact ht
  | true =>
    rw [if_pos rfl] at h
    exact (appendToList_ok h ht).1

theorem aprStep4_epis (d : List (String × JVal)) :
    jget (aprStep4 d) K_EPIS = jget d K_EPIS := by
  unfold aprStep4
  by_cases h : truthyOpt (jget d K_PROC) = true
  · rw [if_pos h]
  · rw [if_neg h, jget_jset_other _ _ _ _ (by decide : K_PROC ≠ K_EPIS)]

theorem aprStep4_proc (d : List (String × JVal)) :
    truthyOpt (jget (aprStep4 d) K_PROC) = true := by
  unfold aprStep4
  by_cases h : truthyOpt (jget d K_PROC) = true
  · rw [if_pos h]
    exact h
  · rw [if_neg h, jget_jset_self]
    decide

/-- C8 counterexample: when the model's JSON has `"epis_obrigatorios"`
bound to the (truthy) *string* `"capacete"` and the activity mentions
neither heights nor confined spaces, the step succeeds and returns a
record whose `epis_obrigatorios` is not a list at all — so "the returned
record's epis_obrigatorios field is a non-empty list" fails. -/
theorem c8_counterexample :
    aprPosProcess "pintura" [(K_EPIS, JVal.jstr "capacete")]
      = Except.ok [(K_EPIS, JVal.jstr "capacete"), (K_PROC, defaultProc)] ∧
    isList (jget [(K_EPIS, JVal.jstr "capacete"), (K_PROC, defaultProc)] K_EPIS) = false :=
  ⟨rfl, rfl⟩

/-- C8 amended: whenever the post-processing of `gerar_apr_ia` succeeds,
the returned record's `epis_obrigatorios` and `procedimentos_emergencia`
fields are present and truthy — in particular, whenever
`epis_obrigatorios` is a list it is non-empty and whenever
`procedimentos_emergencia` is a string it is non-empty, the fixed defaults
having been substituted when the model left them empty or absent — but the
fields need not be a list / a string when the model returned a truthy
value of another type. -/
theorem c8_amended_truthy_defaults (tarefa : String)
    (dados out : List (String × JVal))
    (hok : aprPosProcess tarefa dados = Except.ok out) :
    truthyOpt (jget out K_EPIS) = true ∧
    truthyOpt (jget out K_PROC) = true ∧
    (∀ xs, jget out K_EPIS = some (JVal.jarr xs) → xs ≠ []) ∧
    (∀ s, jget out K_PROC = some (JVal.jstr s) → s ≠ "") := by
  unfold aprPosProcess at hok
  rcases h2m : (if alturaCond (pyLower tarefa) = true then
      appendToList (aprStep1 dados) K_EPIS [cintoEpi]
    else Except.ok (aprStep1 dados)) with e | d2
  · rw [h2m] at hok
    cases hok
  · rw [h2m] at hok
    dsimp only at hok
    rcases h3m : (if confinadoCond (pyLower tarefa) = true then
        appendToList d2 K_EPIS confinadoEpis
      else Except.ok d2) with e | d3
    · rw [h3m] at hok
      cases hok
    · rw [h3m] at hok
      injection hok with hok
      subst hok
      have he1 : truthyOpt (jget (aprStep1 dados) K_EPIS) = true := aprStep1_truthy dados
      have he2 : truthyOpt (jget d2 K_EPIS) = true := condAppend_truthy h2m he1
      have he3 : truthyOpt (jget d3 K_EPIS) = true := condAppend_truthy h3m he2
      have hepis : truthyOpt (jget (aprStep4 d3) K_EPIS) = true := by
        rw [aprStep4_epis]
        exact he3
      have hproc := aprStep4_proc d3
      refine ⟨hepis, hproc, ?_, ?_⟩
      · intro xs hxs hnil
        subst hnil
        rw [hxs] at hepis
        simp [truthyOpt, truthy] at hepis
      · intro s hs hse
        subst hse
        rw [hs] at hproc
        simp [truthyOpt, truthy] at hproc

/-- Witness for the amended C8. -/
theorem c8_amended_witness :
    truthyOpt (jget [(K_EPIS, JVal.jstr "capacete"), (K_PROC, defaultProc)] K_EPIS)
      = true :=
  (c8_amended_truthy_defaults "pintura" [(K_EPIS, JVal.jstr "capacete")]
    [(K_EPIS, JVal.jstr "capacete"), (K_PROC, defaultProc)] rfl).1
